import Mathlib

/-!
Shallow embedding of `include/PartialCsvParser.hpp` (namespace PCP).

Bytes are modelled as `Nat` (a C `char` read from the mmap-ed file, seen as an
octet value); a byte string is a `List Nat`.  Pointers into the buffer are
modelled as `Nat` offsets.  Throwing is modelled with `Except` (constructors)
and with an explicit result constructor (`get_row`'s `PCPCsvError`).
-/

namespace PCP

/-- Backward scan of `_get_current_line` (line 162 of the header):
`while (line_start > text && *(line_start - 1) != line_terminator) --line_start;`.
Returns the final offset of `line_start`, starting the scan at the given position. -/
def findLineStart (text : List Nat) (line_terminator : Nat) : Nat → Nat
  | 0 => 0
  | p + 1 => if text[p]? = some line_terminator then p + 1 else findLineStart text line_terminator p

/-- Forward scan of `_get_current_line` (line 164 of the header):
`while (line_end < text + text_length_byte && *line_end != line_terminator) ++line_end;`.
Returns the final offset of `line_end`, starting the scan at `p`. -/
def findLineEnd (text : List Nat) (line_terminator : Nat) (p : Nat) : Nat :=
  if h : p < text.length then
    if text[p] = line_terminator then p else findLineEnd text line_terminator (p + 1)
  else p
termination_by text.length - p

/-- `_get_current_line(text, text_length, current_pos, line_terminator, &line, &line_length)`:
outputs the pair (offset of `*line` in `text`, `*line_length_byte`). -/
def _get_current_line (text : List Nat) (current_pos : Nat) (line_terminator : Nat) : Nat × Nat :=
  let line_start := findLineStart text line_terminator current_pos
  let line_end := findLineEnd text line_terminator current_pos
  (line_start, line_end - line_start)

/-- `_split(str, len, delimiter)`: walks the bytes left to right, pushing the
accumulated field at each delimiter occurrence and once more at the end. -/
def _split (str : List Nat) (delimiter : Nat) : List (List Nat) :=
  match str with
  | [] => [[]]
  | c :: rest =>
    if c = delimiter then [] :: _split rest delimiter
    else
      match _split rest delimiter with
      | f :: fs => (c :: f) :: fs
      | [] => [[c]]

/-- The fields of `CsvConfig` after a successful construction (the mmap-ed
text replaced by the byte list it maps).  `header_length` and `headers` are
only meaningful when `has_header_line` is true, exactly as in the source. -/
structure CsvConfig where
  csv_text : List Nat
  has_header_line : Bool
  field_terminator : Nat
  line_terminator : Nat
  headers : List (List Nat)
  header_length : Nat
  n_columns : Nat
deriving Repr, DecidableEq

/-- `CsvConfig::CsvConfig(filepath, has_header_line, field_terminator, line_terminator)`.
The ASSERTs on the terminators (lines 214-215) come first; an empty file makes
`mmap` fail with an error before any parsing (`csv_size` would be 0), and
`_get_current_line` itself asserts `text_length_byte >= 1`.  Then the first
line is located from position 0, split, and `n_columns` / `headers` /
`header_length` are filled in. -/
def mkCsvConfig (csv_text : List Nat) (has_header_line : Bool)
    (field_terminator line_terminator : Nat) : Except String CsvConfig :=
  if ¬ (field_terminator ≤ 127) then .error "ASSERT(field_terminator <= 127)"
  else if ¬ (line_terminator ≤ 127) then .error "ASSERT(line_terminator <= 127)"
  else if csv_text.length = 0 then .error "Fatal from PartialCsvParser while mmap"
  else
    let ll := _get_current_line csv_text 0 line_terminator
    let line := (csv_text.drop ll.1).take ll.2
    let columns := _split line field_terminator
    .ok { csv_text := csv_text
          has_header_line := has_header_line
          field_terminator := field_terminator
          line_terminator := line_terminator
          headers := if has_header_line then columns else []
          header_length := if has_header_line then ll.2 else 0
          n_columns := columns.length }

/-- `CsvConfig::filesize()`. -/
def CsvConfig.filesize (c : CsvConfig) : Nat := c.csv_text.length

/-- `CsvConfig::body_offset()`. -/
def CsvConfig.body_offset (c : CsvConfig) : Nat :=
  if ¬ c.has_header_line then 0 else c.header_length + 1

/-- Mutable state of a `PartialCsvParser` (the `csv_config` reference is passed
separately to `get_row`). -/
structure ParserState where
  parse_from : Nat
  parse_to : Nat
  cur_pos : Nat
deriving Repr, DecidableEq

/-- `PartialCsvParser::PartialCsvParser(csv_config, parse_from, parse_to)`.
The sentinels `PARSE_FROM_BODY_BEGINNING` / `PARSE_TO_FILE_END` are modelled by
`none`.  The two ASSERTs are modelled as errors; there is deliberately no
`parse_from <= parse_to` check (lines 365-367 of the source). -/
def mkPartialCsvParser (csv_config : CsvConfig)
    (opt_parse_from opt_parse_to : Option Nat) : Except String ParserState :=
  let parse_from := opt_parse_from.getD csv_config.body_offset
  let parse_to := opt_parse_to.getD (csv_config.filesize - 1)
  if ¬ (csv_config.body_offset ≤ parse_from) then .error "ASSERT(body_offset <= parse_from)"
  else if ¬ (parse_to < csv_config.filesize) then .error "ASSERT(parse_to < filesize)"
  else .ok { parse_from := parse_from, parse_to := parse_to, cur_pos := parse_from }

/-- Result of one `get_row()` call: a parsed row, the thrown `PCPCsvError`
(carrying the offending line's bytes and its column count, both of which the
error message cites), or the empty vector that marks exhaustion. -/
inductive RowResult where
  | row (columns : List (List Nat))
  | csvError (line : List Nat) (n_found : Nat)
  | empty
deriving Repr, DecidableEq

/-- `PartialCsvParser::get_row()`, with the state threaded explicitly: takes
the fields of the shared `CsvConfig` it reads, `parse_to` and the current
`cur_pos`; returns the result together with the updated `cur_pos`. -/
def get_row (text : List Nat) (lt ft n_columns parse_to : Nat) (cur_pos : Nat) :
    RowResult × Nat :=
  if _h : cur_pos ≤ parse_to then
    let ll := _get_current_line text cur_pos lt
    let line_start := ll.1
    let line_length := ll.2
    if cur_pos = line_start then
      -- cur_pos exactly is the beginning of current line: parse it,
      -- move cur_pos past the line and its terminator, then check the column count.
      let line := (text.drop line_start).take line_length
      let columns := _split line ft
      if columns.length = n_columns then (RowResult.row columns, cur_pos + line_length + 1)
      else (RowResult.csvError line columns.length, cur_pos + line_length + 1)
    else if parse_to < line_start + line_length + 1 then
      -- parse_to is at the same line with cur_pos: no line of this range remains.
      (RowResult.empty, cur_pos)
    else
      -- parse_to is beyond the same line with cur_pos: skip this foreign line.
      get_row text lt ft n_columns parse_to (line_start + line_length + 1)
  else (RowResult.empty, cur_pos)
termination_by parse_to + 1 - cur_pos
decreasing_by
  have h1 : ∀ q, findLineStart text lt q ≤ q := by
    intro q
    induction q with
    | zero => exact Nat.le_refl _
    | succ n ih =>
      unfold findLineStart
      split
      · exact Nat.le_refl _
      · exact Nat.le_succ_of_le ih
  have h2 : ∀ q, q ≤ findLineEnd text lt q := by
    have key : ∀ n q, text.length - q ≤ n → q ≤ findLineEnd text lt q := by
      intro n
      induction n with
      | zero =>
        intro q hq
        unfold findLineEnd
        split
        · omega
        · exact Nat.le_refl _
      | succ n ih =>
        intro q hq
        unfold findLineEnd
        split
        · split
          · exact Nat.le_refl _
          · exact Nat.le_of_succ_le (ih (q + 1) (by omega))
        · exact Nat.le_refl _
    exact fun q => key _ q (Nat.le_refl _)
  have h3 := h1 cur_pos
  have h4 := h2 cur_pos
  simp only [_get_current_line] at *
  omega

/-- `get_row` with explicit fuel: each unit of fuel pays for one iteration of
the `while (cur_pos <= parse_to)` loop; `none` means the fuel ran out. -/
def get_rowF (fuel : Nat) (text : List Nat) (lt ft n_columns parse_to : Nat)
    (cur_pos : Nat) : Option (RowResult × Nat) :=
  match fuel with
  | 0 => none
  | fuel + 1 =>
    if cur_pos ≤ parse_to then
      let ll := _get_current_line text cur_pos lt
      let line_start := ll.1
      let line_length := ll.2
      if cur_pos = line_start then
        let line := (text.drop line_start).take line_length
        let columns := _split line ft
        if columns.length = n_columns then some (RowResult.row columns, cur_pos + line_length + 1)
        else some (RowResult.csvError line columns.length, cur_pos + line_length + 1)
      else if parse_to < line_start + line_length + 1 then
        some (RowResult.empty, cur_pos)
      else
        get_rowF fuel text lt ft n_columns parse_to (line_start + line_length + 1)
    else some (RowResult.empty, cur_pos)

/-- Fuelled trace of repeated `get_row` calls on one parser: each call's
result is recorded and its updated `cur_pos` is fed to the next call, until a
call returns the empty vector.  `parse_to + 1 - cur_pos` units of fuel always
suffice (theorem `runRows_eq`), so `runRows` below is the total version. -/
def runRowsF (fuel : Nat) (text : List Nat) (lt ft n_columns parse_to : Nat)
    (cur_pos : Nat) : List RowResult :=
  match fuel with
  | 0 => []
  | fuel + 1 =>
    match get_row text lt ft n_columns parse_to cur_pos with
    | (RowResult.row r, new_pos) =>
      RowResult.row r :: runRowsF fuel text lt ft n_columns parse_to new_pos
    | (RowResult.csvError l k, new_pos) =>
      RowResult.csvError l k :: runRowsF fuel text lt ft n_columns parse_to new_pos
    | (RowResult.empty, _) => []

/-- The full sequence of results a `PartialCsvParser` with range
`[cur_pos, parse_to]` produces: call `get_row` repeatedly until it returns the
empty vector, recording every returned row (and every thrown `PCPCsvError`). -/
def runRows (text : List Nat) (lt ft n_columns parse_to : Nat) (cur_pos : Nat) :
    List RowResult :=
  runRowsF (parse_to + 1 - cur_pos) text lt ft n_columns parse_to cur_pos

/-- Traces of one parser per range, concatenated in range order.  The list
`ps = [p_0, p_1, ..., p_k]` of split points encodes the ranges
`[p_0, p_1 - 1], [p_1, p_2 - 1], ..., [p_(k-1), p_k - 1]`, a partition of
`[p_0, p_k)` into contiguous, non-overlapping pieces. -/
def joinRuns (text : List Nat) (lt ft n_columns : Nat) : List Nat → List RowResult
  | p :: q :: rest =>
    runRows text lt ft n_columns (q - 1) p ++ joinRuns text lt ft n_columns (q :: rest)
  | _ => []

theorem findLineStart_le (text : List Nat) (lt : Nat) :
    ∀ p, findLineStart text lt p ≤ p := by
  intro p
  induction p with
  | zero => simp [findLineStart]
  | succ n ih =>
    simp only [findLineStart]
    split
    · exact Nat.le_refl _
    · exact Nat.le_succ_of_le ih

theorem le_findLineEnd (text : List Nat) (lt : Nat) (p : Nat) :
    p ≤ findLineEnd text lt p := by
  have key : ∀ n q, text.length - q ≤ n → q ≤ findLineEnd text lt q := by
    intro n
    induction n with
    | zero =>
      intro q hq
      unfold findLineEnd
      split
      · omega
      · exact Nat.le_refl _
    | succ n ih =>
      intro q hq
      unfold findLineEnd
      split
      · split
        · exact Nat.le_refl _
        · exact Nat.le_of_succ_le (ih (q + 1) (by omega))
      · exact Nat.le_refl _
  exact key _ p (Nat.le_refl _)

theorem findLineStart_boundary (text : List Nat) (lt : Nat) (p : Nat) :
    findLineStart text lt p = 0 ∨
      text[findLineStart text lt p - 1]? = some lt := by
  induction p with
  | zero => left; rfl
  | succ n ih =>
    unfold findLineStart
    split
    · right; simpa
    · exact ih

theorem findLineStart_no_term (text : List Nat) (lt : Nat) (p : Nat) :
    ∀ j, findLineStart text lt p ≤ j → j < p → text[j]? ≠ some lt := by
  induction p with
  | zero => intro j h1 h2; omega
  | succ n ih =>
    intro j h1 h2
    revert h1
    unfold findLineStart
    split
    · intro h1; omega
    · intro h1
      rcases Nat.lt_or_ge j n with hj | hj
      · exact ih j h1 hj
      · have : j = n := by omega
        subst this
        assumption

theorem findLineEnd_le_length (text : List Nat) (lt : Nat) (p : Nat)
    (hp : p ≤ text.length) : findLineEnd text lt p ≤ text.length := by
  have key : ∀ n q, text.length - q ≤ n → q ≤ text.length →
      findLineEnd text lt q ≤ text.length := by
    intro n
    induction n with
    | zero =>
      intro q hq hql
      unfold findLineEnd
      split
      · omega
      · exact hql
    | succ n ih =>
      intro q hq hql
      unfold findLineEnd
      split
      · split
        · omega
        · exact ih (q + 1) (by omega) (by omega)
      · exact hql
  exact key _ p (Nat.le_refl _) hp

theorem findLineEnd_boundary (text : List Nat) (lt : Nat) (p : Nat)
    (hp : p ≤ text.length) :
    findLineEnd text lt p = text.length ∨
      text[findLineEnd text lt p]? = some lt := by
  have key : ∀ n q, text.length - q ≤ n → q ≤ text.length →
      findLineEnd text lt q = text.length ∨ text[findLineEnd text lt q]? = some lt := by
    intro n
    induction n with
    | zero =>
      intro q hq hql
      unfold findLineEnd
      split
      · omega
      · left; omega
    | succ n ih =>
      intro q hq hql
      unfold findLineEnd
      split
      · next h =>
        split
        · next heq => right; simp [List.getElem?_eq_some]; exact ⟨h, heq⟩
        · exact ih (q + 1) (by omega) (by omega)
      · left; omega
  exact key _ p (Nat.le_refl _) hp

theorem findLineEnd_no_term (text : List Nat) (lt : Nat) (p : Nat) :
    ∀ j, p ≤ j → j < findLineEnd text lt p → text[j]? ≠ some lt := by
  have key : ∀ n q, text.length - q ≤ n →
      ∀ j, q ≤ j → j < findLineEnd text lt q → text[j]? ≠ some lt := by
    intro n
    induction n with
    | zero =>
      intro q hq j h1 h2
      revert h2
      unfold findLineEnd
      split
      · omega
      · intro h2; omega
    | succ n ih =>
      intro q hq j h1 h2
      revert h2
      unfold findLineEnd
      split
      · next h =>
        split
        · intro h2; omega
        · next hne =>
          intro h2
          rcases Nat.lt_or_ge q j with hj | hj
          · exact ih (q + 1) (by omega) j (by omega) h2
          · have : j = q := by omega
            subst this
            simp [List.getElem?_eq_some]
            intro
            exact hne
      · intro h2; omega
  exact key _ p (Nat.le_refl _)

theorem findLineStart_eq_of (text : List Nat) (lt : Nat) (p s : Nat)
    (h1 : s ≤ p) (h2 : s = 0 ∨ text[s - 1]? = some lt)
    (h3 : ∀ j, s ≤ j → j < p → text[j]? ≠ some lt) :
    findLineStart text lt p = s := by
  induction p with
  | zero =>
    simp only [findLineStart]
    omega
  | succ n ih =>
    unfold findLineStart
    split
    · next hterm =>
      rcases Nat.lt_or_ge s (n + 1) with hs | hs
      · exact absurd hterm (h3 n (by omega) (Nat.lt_succ_self n))
      · omega
    · next hterm =>
      rcases Nat.lt_or_ge s (n + 1) with hs | hs
      · exact ih (by omega) (fun j hj1 hj2 => h3 j hj1 (by omega))
      · have : s = n + 1 := by omega
        subst this
        rcases h2 with h2 | h2
        · omega
        · simp at h2
          exact absurd h2 hterm

theorem findLineEnd_eq_of (text : List Nat) (lt : Nat) (p e : Nat)
    (h1 : p ≤ e) (h2 : e = text.length ∨ text[e]? = some lt)
    (h3 : ∀ j, p ≤ j → j < e → text[j]? ≠ some lt) :
    findLineEnd text lt p = e := by
  have hel : e ≤ text.length := by
    rcases h2 with h2 | h2
    · omega
    · have := (List.getElem?_eq_some.mp h2).1
      omega
  have key : ∀ n q, text.length - q ≤ n → q ≤ e →
      (∀ j, q ≤ j → j < e → text[j]? ≠ some lt) → findLineEnd text lt q = e := by
    intro n
    induction n with
    | zero =>
      intro q hq hqe hno
      unfold findLineEnd
      split
      · omega
      · rcases h2 with h2 | h2
        · omega
        · have := (List.getElem?_eq_some.mp h2).1
          omega
    | succ n ih =>
      intro q hq hqe hno
      unfold findLineEnd
      split
      · next hql =>
        split
        · next heq =>
          by_contra hne
          have hqlt : q < e := by omega
          exact hno q (Nat.le_refl _) hqlt (by simp [List.getElem?_eq_some]; exact ⟨hql, heq⟩)
        · next hne =>
          have hqe2 : q + 1 ≤ e := by
            rcases Nat.lt_or_ge q e with hc | hc
            · omega
            · have : q = e := by omega
              subst this
              rcases h2 with h2 | h2
              · omega
              · rw [List.getElem?_eq_getElem hql] at h2
                exact absurd (Option.some.inj h2) hne
          exact ih (q + 1) (by omega) hqe2 (fun j hj1 hj2 => hno j (by omega) hj2)
      · next hql =>
        rcases h2 with h2 | h2
        · omega
        · have := (List.getElem?_eq_some.mp h2).1
          omega
  exact key _ p (Nat.le_refl _) h1 h3

theorem findLineStart_sameLine (text : List Nat) (lt : Nat) (p q : Nat)
    (h1 : findLineStart text lt p ≤ q) (h2 : q ≤ findLineEnd text lt p) :
    findLineStart text lt q = findLineStart text lt p := by
  apply findLineStart_eq_of text lt q _ h1 (findLineStart_boundary text lt p)
  intro j hj1 hj2
  rcases Nat.lt_or_ge j p with hj | hj
  · exact findLineStart_no_term text lt p j hj1 hj
  · exact findLineEnd_no_term text lt p j hj (by omega)

theorem findLineEnd_sameLine (text : List Nat) (lt : Nat) (p q : Nat)
    (hp : p ≤ text.length)
    (h1 : findLineStart text lt p ≤ q) (h2 : q ≤ findLineEnd text lt p) :
    findLineEnd text lt q = findLineEnd text lt p := by
  apply findLineEnd_eq_of text lt q _ h2 (findLineEnd_boundary text lt p hp)
  intro j hj1 hj2
  rcases Nat.lt_or_ge j p with hj | hj
  · exact findLineStart_no_term text lt p j (by omega) hj
  · exact findLineEnd_no_term text lt p j hj hj2

theorem get_row_stop (text : List Nat) (lt ft n pto cur : Nat) (h : pto < cur) :
    get_row text lt ft n pto cur = (RowResult.empty, cur) := by
  unfold get_row
  simp [Nat.not_le.mpr h]

theorem get_row_owned (text : List Nat) (lt ft n pto cur : Nat) (h1 : cur ≤ pto)
    (h2 : findLineStart text lt cur = cur) :
    get_row text lt ft n pto cur =
      (if (_split ((text.drop cur).take (findLineEnd text lt cur - cur)) ft).length = n
       then RowResult.row (_split ((text.drop cur).take (findLineEnd text lt cur - cur)) ft)
       else RowResult.csvError ((text.drop cur).take (findLineEnd text lt cur - cur))
              (_split ((text.drop cur).take (findLineEnd text lt cur - cur)) ft).length,
       findLineEnd text lt cur + 1) := by
  have hle : cur ≤ findLineEnd text lt cur := le_findLineEnd text lt cur
  unfold get_row
  simp only [_get_current_line, h1, dif_pos, h2, if_pos]
  have : cur + (findLineEnd text lt cur - cur) + 1 = findLineEnd text lt cur + 1 := by omega
  rw [this]
  split <;> rfl

theorem get_row_mid_stop (text : List Nat) (lt ft n pto cur : Nat) (h1 : cur ≤ pto)
    (h2 : findLineStart text lt cur ≠ cur)
    (h3 : pto < findLineEnd text lt cur + 1) :
    get_row text lt ft n pto cur = (RowResult.empty, cur) := by
  have h4 := findLineStart_le text lt cur
  have h5 := le_findLineEnd text lt cur
  unfold get_row
  simp only [_get_current_line]
  rw [dif_pos h1, if_neg (fun hc => h2 hc.symm), if_pos (by omega)]

theorem get_row_skip (text : List Nat) (lt ft n pto cur : Nat) (h1 : cur ≤ pto)
    (h2 : findLineStart text lt cur ≠ cur)
    (h3 : findLineEnd text lt cur + 1 ≤ pto) :
    get_row text lt ft n pto cur =
      get_row text lt ft n pto (findLineEnd text lt cur + 1) := by
  have h4 := findLineStart_le text lt cur
  have h5 := le_findLineEnd text lt cur
  conv_lhs => unfold get_row
  simp only [_get_current_line]
  rw [dif_pos h1, if_neg (fun hc => h2 hc.symm), if_neg (by omega)]
  congr 1
  omega

theorem get_row_progress (text : List Nat) (lt ft n pto : Nat) :
    ∀ cur r new_pos, get_row text lt ft n pto cur = (r, new_pos) →
      r ≠ RowResult.empty → cur ≤ pto ∧ cur < new_pos := by
  have key : ∀ m cur, pto + 1 - cur ≤ m →
      ∀ r new_pos, get_row text lt ft n pto cur = (r, new_pos) →
        r ≠ RowResult.empty → cur ≤ pto ∧ cur < new_pos := by
    intro m
    induction m with
    | zero =>
      intro cur hm r new_pos h hr
      rw [get_row_stop text lt ft n pto cur (by omega)] at h
      cases h
      exact absurd rfl hr
    | succ m ih =>
      intro cur hm r new_pos h hr
      by_cases h1 : cur ≤ pto
      · by_cases h2 : findLineStart text lt cur = cur
        · rw [get_row_owned text lt ft n pto cur h1 h2] at h
          have hle := le_findLineEnd text lt cur
          cases h
          exact ⟨h1, by omega⟩
        · by_cases h3 : pto < findLineEnd text lt cur + 1
          · rw [get_row_mid_stop text lt ft n pto cur h1 h2 h3] at h
            cases h
            exact absurd rfl hr
          · rw [get_row_skip text lt ft n pto cur h1 h2 (by omega)] at h
            have hle := le_findLineEnd text lt cur
            have := ih (findLineEnd text lt cur + 1) (by omega) r new_pos h hr
            exact ⟨h1, by omega⟩
      · rw [get_row_stop text lt ft n pto cur (by omega)] at h
        cases h
        exact absurd rfl hr
  intro cur
  exact key (pto + 1 - cur) cur (Nat.le_refl _)

theorem runRowsF_stable (text : List Nat) (lt ft n pto : Nat) :
    ∀ m cur f, pto + 1 - cur ≤ m → pto + 1 - cur ≤ f →
      runRowsF f text lt ft n pto cur =
        runRowsF (pto + 1 - cur) text lt ft n pto cur := by
  intro m
  induction m with
  | zero =>
    intro cur f hm hf
    have hstop : get_row text lt ft n pto cur = (RowResult.empty, cur) :=
      get_row_stop text lt ft n pto cur (by omega)
    have h0 : pto + 1 - cur = 0 := by omega
    rw [h0]
    cases f with
    | zero => rfl
    | succ g => simp only [runRowsF, hstop]
  | succ m ih =>
    intro cur f hm hf
    by_cases hc : cur ≤ pto
    · have hm1 : pto + 1 - cur = (pto - cur) + 1 := by omega
      cases f with
      | zero => omega
      | succ g =>
        rw [hm1]
        rcases hg : get_row text lt ft n pto cur with ⟨r, new_pos⟩
        cases r with
        | row rr =>
          have hp := get_row_progress text lt ft n pto cur _ _ hg (by simp)
          simp only [runRowsF, hg]
          rw [ih new_pos g (by omega) (by omega), ih new_pos (pto - cur) (by omega) (by omega)]
        | csvError l k =>
          have hp := get_row_progress text lt ft n pto cur _ _ hg (by simp)
          simp only [runRowsF, hg]
          rw [ih new_pos g (by omega) (by omega), ih new_pos (pto - cur) (by omega) (by omega)]
        | empty => simp only [runRowsF, hg]
    · have hstop : get_row text lt ft n pto cur = (RowResult.empty, cur) :=
        get_row_stop text lt ft n pto cur (by omega)
      have h0 : pto + 1 - cur = 0 := by omega
      rw [h0]
      cases f with
      | zero => rfl
      | succ g => simp only [runRowsF, hstop]

theorem runRows_cons (text : List Nat) (lt ft n pto cur : Nat) (r : RowResult)
    (new_pos : Nat) (h : get_row text lt ft n pto cur = (r, new_pos))
    (hr : r ≠ RowResult.empty) :
    runRows text lt ft n pto cur = r :: runRows text lt ft n pto new_pos := by
  have hp := get_row_progress text lt ft n pto cur _ _ h hr
  unfold runRows
  have hm1 : pto + 1 - cur = (pto - cur) + 1 := by omega
  rw [hm1]
  cases r with
  | row rr =>
    simp only [runRowsF, h]
    rw [runRowsF_stable text lt ft n pto (pto + 1 - new_pos) new_pos (pto - cur)
      (Nat.le_refl _) (by omega)]
  | csvError l k =>
    simp only [runRowsF, h]
    rw [runRowsF_stable text lt ft n pto (pto + 1 - new_pos) new_pos (pto - cur)
      (Nat.le_refl _) (by omega)]
  | empty => exact absurd rfl hr

theorem runRows_nil (text : List Nat) (lt ft n pto cur : Nat) (p : Nat)
    (h : get_row text lt ft n pto cur = (RowResult.empty, p)) :
    runRows text lt ft n pto cur = [] := by
  unfold runRows
  rcases h0 : pto + 1 - cur with _ | m
  · rfl
  · simp only [runRowsF, h]

theorem runRows_stop (text : List Nat) (lt ft n pto cur : Nat) (h : pto < cur) :
    runRows text lt ft n pto cur = [] :=
  runRows_nil text lt ft n pto cur cur (get_row_stop text lt ft n pto cur h)

theorem runRows_congr (text : List Nat) (lt ft n pto x y : Nat)
    (h : get_row text lt ft n pto x = get_row text lt ft n pto y) :
    runRows text lt ft n pto x = runRows text lt ft n pto y := by
  rcases hg : get_row text lt ft n pto x with ⟨r, new_pos⟩
  have hy : get_row text lt ft n pto y = (r, new_pos) := by rw [← h, hg]
  cases r with
  | empty =>
    rw [runRows_nil text lt ft n pto x new_pos hg, runRows_nil text lt ft n pto y new_pos hy]
  | row rr =>
    rw [runRows_cons text lt ft n pto x _ new_pos hg (by simp),
      runRows_cons text lt ft n pto y _ new_pos hy (by simp)]
  | csvError l k =>
    rw [runRows_cons text lt ft n pto x _ new_pos hg (by simp),
      runRows_cons text lt ft n pto y _ new_pos hy (by simp)]

theorem runRows_splice (text : List Nat) (lt ft nc : Nat) (b c : Nat)
    (hbc : b ≤ c + 1) (hc : c < text.length) :
    ∀ a, a < b →
      runRows text lt ft nc (b - 1) a ++ runRows text lt ft nc c b =
        runRows text lt ft nc c a := by
  have key : ∀ m a, c + 1 - a ≤ m → a < b →
      runRows text lt ft nc (b - 1) a ++ runRows text lt ft nc c b =
        runRows text lt ft nc c a := by
    intro m
    induction m with
    | zero => intro a hm hab; omega
    | succ m ih =>
      intro a hm hab
      have hac : a ≤ c := by omega
      have hls := findLineStart_le text lt a
      have hle := le_findLineEnd text lt a
      have hlen : findLineEnd text lt a ≤ text.length :=
        findLineEnd_le_length text lt a (by omega)
      by_cases hown : findLineStart text lt a = a
      · -- `a` owns its line: both the range-limited parser and the full one
        -- emit the same result and advance to the byte past the line.
        have e1 := get_row_owned text lt ft nc (b - 1) a (by omega) hown
        have e2 := get_row_owned text lt ft nc c a hac hown
        obtain ⟨X, hXne, hX1, hX2⟩ : ∃ X, X ≠ RowResult.empty ∧
            get_row text lt ft nc (b - 1) a = (X, findLineEnd text lt a + 1) ∧
            get_row text lt ft nc c a = (X, findLineEnd text lt a + 1) :=
          ⟨_, by split <;> simp, e1, e2⟩
        rw [runRows_cons text lt ft nc (b - 1) a X _ hX1 hXne,
          runRows_cons text lt ft nc c a X _ hX2 hXne, List.cons_append]
        congr 1
        rcases Nat.lt_trichotomy (findLineEnd text lt a + 1) b with hcase | hcase | hcase
        · exact ih (findLineEnd text lt a + 1) (by omega) hcase
        · rw [hcase, runRows_stop text lt ft nc (b - 1) b (by omega), List.nil_append]
        · have hble : b ≤ findLineEnd text lt a := by omega
          rw [runRows_stop text lt ft nc (b - 1) (findLineEnd text lt a + 1) (by omega),
            List.nil_append]
          by_cases hbc2 : b ≤ c
          · have hsb : findLineStart text lt b = findLineStart text lt a :=
              findLineStart_sameLine text lt a b (by omega) hble
            have heb : findLineEnd text lt b = findLineEnd text lt a :=
              findLineEnd_sameLine text lt a b (by omega) (by omega) hble
            by_cases hcle : c < findLineEnd text lt a + 1
            · rw [runRows_nil text lt ft nc c b b
                  (get_row_mid_stop text lt ft nc c b hbc2 (by rw [hsb]; omega)
                    (by rw [heb]; omega)),
                runRows_stop text lt ft nc c (findLineEnd text lt a + 1) (by omega)]
            · have hskipb := get_row_skip text lt ft nc c b hbc2 (by rw [hsb]; omega)
                (by rw [heb]; omega)
              rw [heb] at hskipb
              exact runRows_congr text lt ft nc c b _ hskipb
          · rw [runRows_stop text lt ft nc c b (by omega),
              runRows_stop text lt ft nc c (findLineEnd text lt a + 1) (by omega)]
      · -- `a` sits in the middle of a line owned by an earlier range.
        by_cases hble1 : b ≤ findLineEnd text lt a + 1
        · -- range 1 ends inside this very line: it contributes nothing from `a` on.
          rw [runRows_nil text lt ft nc (b - 1) a a
              (get_row_mid_stop text lt ft nc (b - 1) a (by omega) hown (by omega)),
            List.nil_append]
          by_cases hcle : c < findLineEnd text lt a + 1
          · rw [runRows_nil text lt ft nc c a a
                (get_row_mid_stop text lt ft nc c a hac hown (by omega))]
            by_cases hbc2 : b ≤ c
            · have hble : b ≤ findLineEnd text lt a := by omega
              have hsb : findLineStart text lt b = findLineStart text lt a :=
                findLineStart_sameLine text lt a b (by omega) hble
              have heb : findLineEnd text lt b = findLineEnd text lt a :=
                findLineEnd_sameLine text lt a b (by omega) (by omega) hble
              exact runRows_nil text lt ft nc c b b
                (get_row_mid_stop text lt ft nc c b hbc2 (by rw [hsb]; omega)
                  (by rw [heb]; omega))
            · exact runRows_stop text lt ft nc c b (by omega)
          · have hra : runRows text lt ft nc c a =
                runRows text lt ft nc c (findLineEnd text lt a + 1) :=
              runRows_congr text lt ft nc c a _
                (get_row_skip text lt ft nc c a hac hown (by omega))
            rw [hra]
            rcases Nat.lt_or_ge (findLineEnd text lt a) b with hcase | hcase
            · have : b = findLineEnd text lt a + 1 := by omega
              rw [this]
            · have hsb : findLineStart text lt b = findLineStart text lt a :=
                findLineStart_sameLine text lt a b (by omega) (by omega)
              have heb : findLineEnd text lt b = findLineEnd text lt a :=
                findLineEnd_sameLine text lt a b (by omega) (by omega) (by omega)
              have hskipb := get_row_skip text lt ft nc c b (by omega) (by rw [hsb]; omega)
                (by rw [heb]; omega)
              rw [heb] at hskipb
              exact runRows_congr text lt ft nc c b _ hskipb
        · -- both parsers skip this foreign line and continue past it.
          rw [runRows_congr text lt ft nc (b - 1) a _
              (get_row_skip text lt ft nc (b - 1) a (by omega) hown (by omega)),
            runRows_congr text lt ft nc c a _
              (get_row_skip text lt ft nc c a hac hown (by omega))]
          exact ih (findLineEnd text lt a + 1) (by omega) (by omega)
  intro a hab
  exact key (c + 1 - a) a (Nat.le_refl _) hab

theorem _split_ne_nil (str : List Nat) (d : Nat) : _split str d ≠ [] := by
  cases str with
  | nil => simp [_split]
  | cons c rest =>
    simp only [_split]
    split
    · simp
    · split <;> simp

theorem _split_eq_splitOn (d : Nat) : ∀ str : List Nat, _split str d = str.splitOn d := by
  intro str
  induction str with
  | nil => rfl
  | cons c rest ih =>
    have hcons : (c :: rest).splitOn d =
        if (c == d) then [] :: rest.splitOn d
        else (rest.splitOn d).modifyHead (List.cons c) := by
      simp [List.splitOn, List.splitOnP_cons]
    rw [hcons]
    simp only [_split]
    by_cases hc : c = d
    · rw [if_pos hc, if_pos (by simpa using hc), ih]
    · rw [if_neg hc, if_neg (by simpa using hc), ← ih]
      rcases hsp : _split rest d with _ | ⟨f, fs⟩
      · exact absurd hsp (_split_ne_nil rest d)
      · simp [List.modifyHead]

/-- Claim C3: splitting a byte sequence of length L with k delimiter
occurrences yields exactly k+1 fields, in order with all bytes preserved
(joining the fields back with the delimiter restores the input, so there is no
trimming and no quote handling); the empty input yields one empty field, and
`"a,,b"` split on `','` yields `["a", "", "b"]`. -/
theorem claim_C3_split_fields (str : List Nat) (d : Nat) :
    (_split str d).length = str.count d + 1 ∧
    List.intercalate [d] (_split str d) = str ∧
    _split ([] : List Nat) d = [[]] ∧
    _split [97, 44, 44, 98] 44 = [[97], [], [98]] := by
  refine ⟨?_, ?_, rfl, by decide⟩
  · induction str with
    | nil => simp [_split]
    | cons c rest ih =>
      simp only [_split]
      split
      · next hc =>
        subst hc
        simp only [List.length_cons, List.count_cons_self, ih]
      · next hc =>
        rcases hsp : _split rest d with _ | ⟨f, fs⟩
        · exact absurd hsp (_split_ne_nil rest d)
        · rw [hsp] at ih
          simp only [List.length_cons] at ih ⊢
          rw [List.count_cons_of_ne (by simpa using (Ne.symm hc)), ← ih]
  · rw [_split_eq_splitOn]
    exact List.intercalate_splitOn str d

theorem findLineEnd_takeWhile (text : List Nat) (lt : Nat) :
    ∀ p, findLineEnd text lt p =
      p + ((text.drop p).takeWhile (fun c => c != lt)).length := by
  have key : ∀ n p, text.length - p ≤ n →
      findLineEnd text lt p =
        p + ((text.drop p).takeWhile (fun c => c != lt)).length := by
    intro n
    induction n with
    | zero =>
      intro p hp
      unfold findLineEnd
      split
      · omega
      · next h =>
        rw [List.drop_eq_nil_of_le (by omega)]
        simp
    | succ n ih =>
      intro p hp
      unfold findLineEnd
      split
      · next h =>
        rw [List.drop_eq_getElem_cons h, List.takeWhile_cons]
        split
        · next heq =>
          simp [heq]
        · next hne =>
          rw [ih (p + 1) (by omega)]
          simp only [bne_iff_ne, ne_eq, hne, not_false_eq_true, if_true, List.length_cons]
          omega
      · next h =>
        rw [List.drop_eq_nil_of_le (by omega)]
        simp
  exact fun p => key _ p (Nat.le_refl _)

theorem take_takeWhile_length (l : List Nat) (q : Nat → Bool) :
    l.take (l.takeWhile q).length = l.takeWhile q := by
  induction l with
  | nil => rfl
  | cons c rest ih =>
    rw [List.takeWhile_cons]
    by_cases hc : q c
    · simp [hc, ih]
    · simp [hc]

/-- Claim C5: a successfully constructed `CsvConfig` has `n_columns` equal to
the number of fields of the buffer's first line (the bytes before the first
line terminator), `body_offset` equal to that first line's byte length plus
one when `has_header_line` is set and 0 otherwise, and, when
`has_header_line` is set, `headers` equal to exactly the first line's fields. -/
theorem claim_C5_schema_from_first_line (csv_text : List Nat) (hh : Bool)
    (ft lt : Nat) (cfg : CsvConfig)
    (h : mkCsvConfig csv_text hh ft lt = Except.ok cfg) :
    cfg.n_columns = (_split (csv_text.takeWhile (fun c => c != lt)) ft).length ∧
    (hh = true → cfg.headers = _split (csv_text.takeWhile (fun c => c != lt)) ft) ∧
    cfg.body_offset =
      if hh then (csv_text.takeWhile (fun c => c != lt)).length + 1 else 0 := by
  unfold mkCsvConfig at h
  split at h
  · exact absurd h (by simp)
  · split at h
    · exact absurd h (by simp)
    · split at h
      · exact absurd h (by simp)
      · simp only [_get_current_line] at h
        have hfs : findLineStart csv_text lt 0 = 0 := rfl
        have hfe := findLineEnd_takeWhile csv_text lt 0
        rw [List.drop_zero] at hfe
        injection h with h
        subst h
        have hline : (csv_text.drop (findLineStart csv_text lt 0)).take
            (findLineEnd csv_text lt 0 - findLineStart csv_text lt 0) =
            csv_text.takeWhile (fun c => c != lt) := by
          rw [hfs, List.drop_zero, hfe]
          simpa using take_takeWhile_length csv_text (fun c => c != lt)
        refine ⟨?_, ?_, ?_⟩
        · simp only [hline]
        · intro hhh
          simp only [hline, hhh, if_pos]
        · cases hh with
          | false => simp [CsvConfig.body_offset]
          | true =>
            simp only [CsvConfig.body_offset, Bool.not_true]
            rw [hfs, hfe]
            simp

/-- Claim C8: constructing a `CsvConfig` with a field terminator or a line
terminator byte outside the ASCII range 0-127 fails with a configuration
error, before any parsing of the buffer occurs. -/
theorem claim_C8_terminator_validation (csv_text : List Nat) (hh : Bool)
    (ft lt : Nat) (h : 127 < ft ∨ 127 < lt) :
    ∃ e, mkCsvConfig csv_text hh ft lt = Except.error e := by
  unfold mkCsvConfig
  by_cases hft : ft ≤ 127
  · rw [if_neg (by omega), if_pos (by omega)]
    exact ⟨_, rfl⟩
  · rw [if_pos (by omega)]
    exact ⟨_, rfl⟩

/-- Claim C2: for a buffer of length at least 1 and a position inside it, the
line locator `_get_current_line` returns the offset of the first byte of the
line containing the position (the byte right after the nearest preceding line
terminator, or offset 0 when no terminator precedes) and the byte length of
that line excluding its trailing terminator (the forward scan stops at the
terminator or at the end of the buffer).  The function is pure, so it has no
side effects by construction. -/
theorem claim_C2_line_locator (text : List Nat) (lt pos line_start line_length : Nat)
    (_h1 : 1 ≤ text.length) (h2 : pos < text.length)
    (h : _get_current_line text pos lt = (line_start, line_length)) :
    line_start ≤ pos ∧
    (line_start = 0 ∨ text[line_start - 1]? = some lt) ∧
    (∀ j, line_start ≤ j → j < pos → text[j]? ≠ some lt) ∧
    pos ≤ line_start + line_length ∧
    line_start + line_length ≤ text.length ∧
    (line_start + line_length = text.length ∨ text[line_start + line_length]? = some lt) ∧
    (∀ j, pos ≤ j → j < line_start + line_length → text[j]? ≠ some lt) := by
  have hls : line_start = findLineStart text lt pos := by
    have := congrArg Prod.fst h
    simpa [_get_current_line] using this.symm
  have hll : line_length = findLineEnd text lt pos - findLineStart text lt pos := by
    have := congrArg Prod.snd h
    simpa [_get_current_line] using this.symm
  have hb := findLineStart_le text lt pos
  have he := le_findLineEnd text lt pos
  have hsum : line_start + line_length = findLineEnd text lt pos := by omega
  subst hls
  refine ⟨hb, findLineStart_boundary text lt pos, findLineStart_no_term text lt pos,
    by omega, ?_, ?_, ?_⟩
  · rw [hsum]
    exact findLineEnd_le_length text lt pos (by omega)
  · rw [hsum]
    exact findLineEnd_boundary text lt pos (by omega)
  · rw [hsum]
    exact findLineEnd_no_term text lt pos

/-- Claim C4: whenever `get_row` reaches a line it owns (the cursor sits on
the line's first byte) whose field count differs from the schema's column
count, the call produces the `PCPCsvError` outcome carrying the offending
line's bytes, advances past the line, and returns no fields of that line; and
any row that `get_row` does return has exactly `n_columns` fields, never
truncated or padded. -/
theorem claim_C4_column_mismatch (text : List Nat) (lt ft nc pto cur : Nat) :
    (∀ r new_pos, get_row text lt ft nc pto cur = (RowResult.row r, new_pos) →
      r.length = nc) ∧
    (∀ line, cur ≤ pto → findLineStart text lt cur = cur →
      line = (text.drop cur).take (findLineEnd text lt cur - cur) →
      (_split line ft).length ≠ nc →
      get_row text lt ft nc pto cur =
        (RowResult.csvError line (_split line ft).length,
          findLineEnd text lt cur + 1)) := by
  constructor
  · have key : ∀ m q, pto + 1 - q ≤ m →
        ∀ r new_pos, get_row text lt ft nc pto q = (RowResult.row r, new_pos) →
          r.length = nc := by
      intro m
      induction m with
      | zero =>
        intro q hm r new_pos h
        rw [get_row_stop text lt ft nc pto q (by omega)] at h
        exact absurd (congrArg Prod.fst h) (by simp)
      | succ m ih =>
        intro q hm r new_pos h
        by_cases hq : q ≤ pto
        · by_cases hown : findLineStart text lt q = q
          · rw [get_row_owned text lt ft nc pto q hq hown] at h
            split at h
            · next hcols =>
              injection h with h _
              injection h with h
              rw [h] at hcols
              exact hcols
            · exact absurd (congrArg Prod.fst h) (by simp)
          · by_cases hmid : pto < findLineEnd text lt q + 1
            · rw [get_row_mid_stop text lt ft nc pto q hq hown hmid] at h
              exact absurd (congrArg Prod.fst h) (by simp)
            · rw [get_row_skip text lt ft nc pto q hq hown (by omega)] at h
              have hle := le_findLineEnd text lt q
              exact ih (findLineEnd text lt q + 1) (by omega) r new_pos h
        · rw [get_row_stop text lt ft nc pto q (by omega)] at h
          exact absurd (congrArg Prod.fst h) (by simp)
    intro r new_pos h
    exact key (pto + 1 - cur) cur (Nat.le_refl _) r new_pos h
  · intro line hq hown hline hcols
    rw [get_row_owned text lt ft nc pto cur hq hown, ← hline, if_neg hcols]

/-- Claim C6: once a `get_row` call on a parser returns the empty vector, the
parser's state is a fixpoint: every further `get_row` call from the state it
left behind returns the empty vector again, with the state unchanged. -/
theorem claim_C6_idempotent_exhaustion (text : List Nat) (lt ft nc pto cur p : Nat)
    (h : get_row text lt ft nc pto cur = (RowResult.empty, p)) :
    get_row text lt ft nc pto p = (RowResult.empty, p) := by
  have key : ∀ m q, pto + 1 - q ≤ m →
      get_row text lt ft nc pto q = (RowResult.empty, p) →
      get_row text lt ft nc pto p = (RowResult.empty, p) := by
    intro m
    induction m with
    | zero =>
      intro q hm hq
      rw [get_row_stop text lt ft nc pto q (by omega)] at hq
      have : p = q := (Prod.mk.injEq _ _ _ _).mp hq |>.2.symm
      subst this
      exact get_row_stop text lt ft nc pto p (by omega)
    | succ m ih =>
      intro q hm hq
      by_cases hc : q ≤ pto
      · by_cases hown : findLineStart text lt q = q
        · rw [get_row_owned text lt ft nc pto q hc hown] at hq
          split at hq
          · exact absurd (congrArg Prod.fst hq) (by simp)
          · exact absurd (congrArg Prod.fst hq) (by simp)
        · by_cases hmid : pto < findLineEnd text lt q + 1
          · rw [get_row_mid_stop text lt ft nc pto q hc hown hmid] at hq
            have : p = q := (Prod.mk.injEq _ _ _ _).mp hq |>.2.symm
            subst this
            exact get_row_mid_stop text lt ft nc pto p hc hown hmid
          · rw [get_row_skip text lt ft nc pto q hc hown (by omega)] at hq
            have hle := le_findLineEnd text lt q
            exact ih (findLineEnd text lt q + 1) (by omega) hq
      · rw [get_row_stop text lt ft nc pto q (by omega)] at hq
        have : p = q := (Prod.mk.injEq _ _ _ _).mp hq |>.2.symm
        subst this
        exact get_row_stop text lt ft nc pto p (by omega)
  exact key (pto + 1 - cur) cur (Nat.le_refl _) h

/-- Claim C7: a parser over an explicit range with `parse_from` greater than
`parse_to` (for example the empty body of a header-only file) is accepted by
the constructor — only `body_offset ≤ parse_from` and
`parse_to < filesize` are checked — and its first `get_row` call returns the
empty vector immediately, for every possible buffer (so no byte of any buffer
is ever accessed). -/
theorem claim_C7_inverted_range (cfg : CsvConfig) (pf pt : Nat)
    (h1 : cfg.body_offset ≤ pf) (h2 : pt < cfg.filesize) (h3 : pt < pf) :
    mkPartialCsvParser cfg (some pf) (some pt) =
      Except.ok { parse_from := pf, parse_to := pt, cur_pos := pf } ∧
    ∀ (text : List Nat) (lt ft nc : Nat),
      get_row text lt ft nc pt pf = (RowResult.empty, pf) := by
  constructor
  · unfold mkPartialCsvParser
    simp only [Option.getD_some]
    rw [if_neg (by simpa using h1), if_neg (by simpa using h2)]
  · intro text lt ft nc
    exact get_row_stop text lt ft nc pt pf h3

/-- Claim C9: every `get_row` call terminates.  Each loop iteration either
returns or strictly increases the cursor past the current line, so
`parse_to + 1 - cur_pos` iterations always suffice: with any fuel above that
bound, the fuelled loop `get_rowF` completes (never returns `none`) and
computes exactly `get_row`. -/
theorem claim_C9_get_row_terminates (text : List Nat) (lt ft nc pto cur fuel : Nat)
    (h : pto + 1 - cur < fuel) :
    get_rowF fuel text lt ft nc pto cur = some (get_row text lt ft nc pto cur) := by
  induction fuel generalizing cur with
  | zero => omega
  | succ f ih =>
    by_cases h1 : cur ≤ pto
    · have hls := findLineStart_le text lt cur
      have hle := le_findLineEnd text lt cur
      by_cases h2 : findLineStart text lt cur = cur
      · rw [get_row_owned text lt ft nc pto cur h1 h2]
        simp only [get_rowF, _get_current_line]
        rw [h2, if_pos h1, if_pos rfl]
        have harith : cur + (findLineEnd text lt cur - cur) + 1 =
            findLineEnd text lt cur + 1 := by omega
        rw [harith]
        split <;> rfl
      · by_cases h3 : pto < findLineEnd text lt cur + 1
        · rw [get_row_mid_stop text lt ft nc pto cur h1 h2 h3]
          simp only [get_rowF, _get_current_line]
          rw [if_pos h1, if_neg (fun hc => h2 hc.symm), if_pos (by omega)]
        · rw [get_row_skip text lt ft nc pto cur h1 h2 (by omega)]
          have step : get_rowF (f + 1) text lt ft nc pto cur =
              get_rowF f text lt ft nc pto
                (findLineStart text lt cur + (findLineEnd text lt cur -
                  findLineStart text lt cur) + 1) := by
            simp only [get_rowF, _get_current_line]
            rw [if_pos h1, if_neg (fun hc => h2 hc.symm), if_neg (by omega)]
          rw [step]
          have harith : findLineStart text lt cur + (findLineEnd text lt cur -
              findLineStart text lt cur) + 1 = findLineEnd text lt cur + 1 := by omega
          rw [harith]
          exact ih (findLineEnd text lt cur + 1) (by omega)
    · rw [get_row_stop text lt ft nc pto cur (by omega)]
      simp only [get_rowF]
      rw [if_neg h1]

/-- Claim C10: a column-count-mismatch error is not atomic with respect to the
parser's state: when `get_row` ends in the `PCPCsvError` outcome, the cursor
has already been advanced past the offending line (to the byte after its
terminator), so a subsequent `get_row` call from the returned state skips the
malformed line and resumes at the next line position the range owns. -/
theorem claim_C10_error_advances_cursor (text : List Nat)
    (lt ft nc pto cur new_pos : Nat) (l : List Nat) (k : Nat)
    (h : get_row text lt ft nc pto cur = (RowResult.csvError l k, new_pos)) :
    ∃ s, cur ≤ s ∧ s ≤ pto ∧ findLineStart text lt s = s ∧
      l = (text.drop s).take (findLineEnd text lt s - s) ∧
      k = (_split l ft).length ∧ k ≠ nc ∧
      new_pos = findLineEnd text lt s + 1 ∧ cur < new_pos := by
  have key : ∀ m q, pto + 1 - q ≤ m →
      get_row text lt ft nc pto q = (RowResult.csvError l k, new_pos) →
      ∃ s, q ≤ s ∧ s ≤ pto ∧ findLineStart text lt s = s ∧
        l = (text.drop s).take (findLineEnd text lt s - s) ∧
        k = (_split l ft).length ∧ k ≠ nc ∧
        new_pos = findLineEnd text lt s + 1 ∧ q < new_pos := by
    intro m
    induction m with
    | zero =>
      intro q hm hq
      rw [get_row_stop text lt ft nc pto q (by omega)] at hq
      exact absurd (congrArg Prod.fst hq) (by simp)
    | succ m ih =>
      intro q hm hq
      by_cases hc : q ≤ pto
      · have hle := le_findLineEnd text lt q
        by_cases hown : findLineStart text lt q = q
        · rw [get_row_owned text lt ft nc pto q hc hown] at hq
          split at hq
          · exact absurd (congrArg Prod.fst hq) (by simp)
          · next hcols =>
            have hfst := congrArg Prod.fst hq
            have hsnd := congrArg Prod.snd hq
            simp only at hfst hsnd
            injection hfst with hl hk
            refine ⟨q, Nat.le_refl _, hc, hown, hl.symm, ?_, ?_, hsnd.symm, by omega⟩
            · rw [← hk, hl]
            · rw [← hk]
              exact hcols
        · by_cases hmid : pto < findLineEnd text lt q + 1
          · rw [get_row_mid_stop text lt ft nc pto q hc hown hmid] at hq
            exact absurd (congrArg Prod.fst hq) (by simp)
          · rw [get_row_skip text lt ft nc pto q hc hown (by omega)] at hq
            obtain ⟨s, hs1, hs2, hs3, hs4, hs5, hs6, hs7, hs8⟩ :=
              ih (findLineEnd text lt q + 1) (by omega) hq
            exact ⟨s, by omega, hs2, hs3, hs4, hs5, hs6, hs7, by omega⟩
      · rw [get_row_stop text lt ft nc pto q (by omega)] at hq
        exact absurd (congrArg Prod.fst hq) (by simp)
  exact key (pto + 1 - cur) cur (Nat.le_refl _) h

theorem chain_head_le_getLast :
    ∀ (ps : List Nat) (p m : Nat), List.Chain' (· < ·) (p :: ps) →
      (p :: ps).getLast? = some m → p ≤ m := by
  intro ps
  induction ps with
  | nil =>
    intro p m _ hlast
    simp at hlast
    omega
  | cons q rest ih =>
    intro p m hchain hlast
    rw [List.chain'_cons] at hchain
    have h2 := ih q m hchain.2 (by simpa using hlast)
    omega

theorem joinRuns_eq_runRows (text : List Nat) (lt ft nc : Nat)
    (hlen : 1 ≤ text.length) :
    ∀ (ps : List Nat) (p : Nat), List.Chain' (· < ·) (p :: ps) →
      (p :: ps).getLast? = some text.length →
      joinRuns text lt ft nc (p :: ps) =
        runRows text lt ft nc (text.length - 1) p := by
  intro ps
  induction ps with
  | nil =>
    intro p _ hlast
    simp at hlast
    subst hlast
    show ([] : List RowResult) = _
    exact (runRows_stop text lt ft nc (text.length - 1) text.length (by omega)).symm
  | cons q rest ih =>
    intro p hchain hlast
    rw [List.chain'_cons] at hchain
    have hpq : p < q := hchain.1
    have hql : q ≤ text.length :=
      chain_head_le_getLast rest q text.length hchain.2 (by simpa using hlast)
    show runRows text lt ft nc (q - 1) p ++ joinRuns text lt ft nc (q :: rest) = _
    rw [ih q hchain.2 (by simpa using hlast)]
    exact runRows_splice text lt ft nc q (text.length - 1) (by omega) (by omega) p hpq

/-- Claim C1: for every non-empty buffer and every partition of
`[body_offset, file_size)` into contiguous, non-overlapping ranges — encoded
by the strictly increasing split points `ps` starting at `body_offset` and
ending at `file_size`, chosen with no regard to line boundaries — the
concatenation, in range order, of the result sequences produced by repeatedly
calling `get_row` on one parser per range equals the result sequence of a
single parser spanning the whole body (`parse_from = body_offset`,
`parse_to = file_size - 1`): every line is emitted exactly once, by the one
range covering its first byte. -/
theorem claim_C1_partition_completeness (cfg : CsvConfig) (ps : List Nat)
    (hlen : 1 ≤ cfg.csv_text.length)
    (hchain : List.Chain' (· < ·) ps)
    (hhead : ps.head? = some cfg.body_offset)
    (hlast : ps.getLast? = some cfg.csv_text.length) :
    joinRuns cfg.csv_text cfg.line_terminator cfg.field_terminator cfg.n_columns ps =
      runRows cfg.csv_text cfg.line_terminator cfg.field_terminator cfg.n_columns
        (cfg.csv_text.length - 1) cfg.body_offset := by
  cases ps with
  | nil => exact absurd hhead (by simp)
  | cons p rest =>
    have hp : p = cfg.body_offset := by simpa using hhead
    subst hp
    exact joinRuns_eq_runRows cfg.csv_text cfg.line_terminator cfg.field_terminator
      cfg.n_columns hlen rest cfg.body_offset hchain hlast

/-- Witness for claim C1: the spec's own split scenario on
`"a,b,c\n1,2,3\n4,5,6\n"` with ranges `[6,13]` and `[14,17]`, the second
starting strictly inside the third line. -/
theorem claim_C1_witness :
    joinRuns [97, 44, 98, 44, 99, 10, 49, 44, 50, 44, 51, 10, 52, 44, 53, 44, 54, 10]
        10 44 3 [6, 14, 18] =
      runRows [97, 44, 98, 44, 99, 10, 49, 44, 50, 44, 51, 10, 52, 44, 53, 44, 54, 10]
        10 44 3 17 6 :=
  claim_C1_partition_completeness
    ⟨[97, 44, 98, 44, 99, 10, 49, 44, 50, 44, 51, 10, 52, 44, 53, 44, 54, 10],
      true, 44, 10, [[97], [98], [99]], 5, 3⟩
    [6, 14, 18] (by decide) (by simp [List.chain'_cons]) (by decide) (by decide)

/-- Witness for claim C2: position 8 of `"a,b,c\n1,2,3\n4,5,6\n"` sits on the
second line, which starts at offset 6 and has 5 bytes. -/
theorem claim_C2_witness :
    (6 : Nat) ≤ 8 ∧
    ((6 : Nat) = 0 ∨
      [97, 44, 98, 44, 99, 10, 49, 44, 50, 44, 51, 10, 52, 44, 53, 44, 54, 10][6 - 1]? =
        some 10) ∧
    (∀ j, 6 ≤ j → j < 8 →
      [97, 44, 98, 44, 99, 10, 49, 44, 50, 44, 51, 10, 52, 44, 53, 44, 54, 10][j]? ≠
        some 10) ∧
    (8 : Nat) ≤ 6 + 5 ∧
    (6 : Nat) + 5 ≤
      [97, 44, 98, 44, 99, 10, 49, 44, 50, 44, 51, 10, 52, 44, 53, 44, 54, 10].length ∧
    ((6 : Nat) + 5 =
        [97, 44, 98, 44, 99, 10, 49, 44, 50, 44, 51, 10, 52, 44, 53, 44, 54, 10].length ∨
      [97, 44, 98, 44, 99, 10, 49, 44, 50, 44, 51, 10, 52, 44, 53, 44, 54, 10][6 + 5]? =
        some 10) ∧
    (∀ j, 8 ≤ j → j < 6 + 5 →
      [97, 44, 98, 44, 99, 10, 49, 44, 50, 44, 51, 10, 52, 44, 53, 44, 54, 10][j]? ≠
        some 10) :=
  claim_C2_line_locator
    [97, 44, 98, 44, 99, 10, 49, 44, 50, 44, 51, 10, 52, 44, 53, 44, 54, 10]
    10 8 6 5 (by decide) (by decide)
    (by simp [_get_current_line, findLineStart, findLineEnd])

/-- Witness for claim C4: on `"a,b\nx\n"` with 2 schema columns, the body
line `"x"` has 1 field, so `get_row` ends in the `PCPCsvError` outcome citing
that line, with the cursor moved past it. -/
theorem claim_C4_witness :
    get_row [97, 44, 98, 10, 120, 10] 10 44 2 5 4 =
      (RowResult.csvError [120] 1, 6) := by
  have h := (claim_C4_column_mismatch [97, 44, 98, 10, 120, 10] 10 44 2 5 4).2 [120]
    (by decide) (by decide) (by simp [findLineEnd]) (by decide)
  exact h.trans (by simp [findLineEnd, _split])

/-- Witness for claim C5: opening `"a,b,c\n1,2,3\n4,5,6\n"` with a header
yields 3 columns, headers `a`, `b`, `c` and body offset 6. -/
theorem claim_C5_witness :
    (3 : Nat) =
      (_split ([97, 44, 98, 44, 99, 10, 49, 44, 50, 44, 51, 10, 52, 44, 53, 44, 54,
        10].takeWhile (fun c => c != 10)) 44).length ∧
    [[97], [98], [99]] =
      _split ([97, 44, 98, 44, 99, 10, 49, 44, 50, 44, 51, 10, 52, 44, 53, 44, 54,
        10].takeWhile (fun c => c != 10)) 44 ∧
    (6 : Nat) =
      if true then
        ([97, 44, 98, 44, 99, 10, 49, 44, 50, 44, 51, 10, 52, 44, 53, 44, 54,
          10].takeWhile (fun c => c != 10)).length + 1
      else 0 := by
  have h := claim_C5_schema_from_first_line
    [97, 44, 98, 44, 99, 10, 49, 44, 50, 44, 51, 10, 52, 44, 53, 44, 54, 10] true 44 10
    ⟨[97, 44, 98, 44, 99, 10, 49, 44, 50, 44, 51, 10, 52, 44, 53, 44, 54, 10],
      true, 44, 10, [[97], [98], [99]], 5, 3⟩
    (by simp [mkCsvConfig, _get_current_line, findLineStart, findLineEnd, _split])
  exact ⟨h.1, h.2.1 rfl, h.2.2⟩

/-- Witness for claim C6: the parser over range `[14, 17]` of
`"a,b,c\n1,2,3\n4,5,6\n"` starts mid-line and is exhausted immediately; a
second call from its state returns the empty vector again. -/
theorem claim_C6_witness :
    get_row [97, 44, 98, 44, 99, 10, 49, 44, 50, 44, 51, 10, 52, 44, 53, 44, 54, 10]
      10 44 3 17 14 = (RowResult.empty, 14) :=
  claim_C6_idempotent_exhaustion
    [97, 44, 98, 44, 99, 10, 49, 44, 50, 44, 51, 10, 52, 44, 53, 44, 54, 10]
    10 44 3 17 14 14
    (by simp [get_row, _get_current_line, findLineStart, findLineEnd])

/-- Witness for claim C7: over the header-only file `"a,b,c\n"`,
`parse_from = body_offset = 6` exceeds `parse_to = filesize - 1 = 5`; the
constructor accepts the range and the first `get_row` returns empty. -/
theorem claim_C7_witness :
    mkPartialCsvParser
      ⟨[97, 44, 98, 44, 99, 10], true, 44, 10, [[97], [98], [99]], 5, 3⟩
      (some 6) (some 5) =
      Except.ok { parse_from := 6, parse_to := 5, cur_pos := 6 } ∧
    get_row [97, 44, 98, 44, 99, 10] 10 44 3 5 6 = (RowResult.empty, 6) := by
  have h := claim_C7_inverted_range
    ⟨[97, 44, 98, 44, 99, 10], true, 44, 10, [[97], [98], [99]], 5, 3⟩
    6 5 (by decide) (by decide) (by decide)
  exact ⟨h.1, h.2 [97, 44, 98, 44, 99, 10] 10 44 3⟩

/-- Witness for claim C8: a line terminator byte of 200 is rejected. -/
theorem claim_C8_witness :
    ∃ e, mkCsvConfig [97] true 44 200 = Except.error e :=
  claim_C8_terminator_validation [97] true 44 200 (Or.inr (by decide))

/-- Witness for claim C9: 19 units of fuel complete the whole-body parse of
`"a,b,c\n1,2,3\n4,5,6\n"` from cursor 6 with `parse_to = 17`. -/
theorem claim_C9_witness :
    get_rowF 19 [97, 44, 98, 44, 99, 10, 49, 44, 50, 44, 51, 10, 52, 44, 53, 44, 54, 10]
        10 44 3 17 6 =
      some (get_row [97, 44, 98, 44, 99, 10, 49, 44, 50, 44, 51, 10, 52, 44, 53, 44, 54, 10]
        10 44 3 17 6) :=
  claim_C9_get_row_terminates
    [97, 44, 98, 44, 99, 10, 49, 44, 50, 44, 51, 10, 52, 44, 53, 44, 54, 10]
    10 44 3 17 6 19 (by decide)

/-- Witness for claim C10: after the mismatch error on line `"x"` of
`"a,b\nx\n"`, the returned cursor 6 lies past the offending line. -/
theorem claim_C10_witness :
    ∃ s, 4 ≤ s ∧ s ≤ 5 ∧ findLineStart [97, 44, 98, 10, 120, 10] 10 s = s ∧
      [120] = ([97, 44, 98, 10, 120, 10].drop s).take
        (findLineEnd [97, 44, 98, 10, 120, 10] 10 s - s) ∧
      (1 : Nat) = (_split [120] 44).length ∧ (1 : Nat) ≠ 2 ∧
      (6 : Nat) = findLineEnd [97, 44, 98, 10, 120, 10] 10 s + 1 ∧ (4 : Nat) < 6 :=
  claim_C10_error_advances_cursor [97, 44, 98, 10, 120, 10] 10 44 2 5 4 6 [120] 1
    (by simp [get_row, _get_current_line, findLineStart, findLineEnd, _split])

end PCP
